import Mathlib

/-!
Verification of the `ta-gthb/Steganography` repository.

The repository's `src/main.py` is a Flask front end around an LSB
steganography codec: `encode_message` / `decode_message` delegate the
bit-level work to the external `stegano.lsb` library, which is not part of
the repository's sources.  The codec itself is therefore modelled here from
the specification (sections 3, 4 and 8 of `spec.md`): raster images as
flattened streams of 8-bit visible-channel values, a length-prefixed bit
frame, LSB embedding and best-effort extraction.  The `/encode` and
`/decode` endpoint validation logic is translated directly from
`src/main.py`.
-/

namespace Steg

/-- A decoded raster image: geometry, the row-major flattened sequence of
visible (non-alpha) 8-bit channel values, and the alpha channel values kept
separately, since the codec never reads or writes alpha. -/
structure RasterImage where
  width : Nat
  height : Nat
  visibleChannels : Nat
  pixels : List Nat
  alpha : List Nat
deriving DecidableEq

/-- Modelled from the spec: `capacity_bits(image) = width * height *
visible_channel_count` (alpha channel excluded). -/
def capacity_bits (I : RasterImage) : Nat :=
  I.width * I.height * I.visibleChannels

/-- Modelled from the spec: `required_bits(message) = 32 + 8 *
byte_length(utf8(message))`.  Messages are modelled as their UTF-8 byte
sequences. -/
def required_bits (m : List Nat) : Nat :=
  32 + 8 * m.length

/-- Replace the alpha channel of an image, leaving everything else alone. -/
def withAlpha (I : RasterImage) (a : List Nat) : RasterImage :=
  { I with alpha := a }

/-- The `w` low-order bits of `n`, most significant first. -/
def natToBits : Nat → Nat → List Nat
  | 0, _ => []
  | w + 1, n => n / 2 ^ w % 2 :: natToBits w n

/-- Each byte expanded into 8 bits, MSB first, in order. -/
def bytesToBits : List Nat → List Nat
  | [] => []
  | b :: bs => natToBits 8 b ++ bytesToBits bs

/-- Modelled from the spec: `encode_frame(message)` emits a 32-bit
big-endian count of message bytes, then each message byte as 8 bits
MSB-first, in order.  There is no delimiter sentinel. -/
def encode_frame (m : List Nat) : List Nat :=
  natToBits 32 m.length ++ bytesToBits m

/-- Overwrite the least significant bit of a channel value:
`v' = (v & 0xFE) | bit`. -/
def setLSB (v b : Nat) : Nat :=
  2 * (v / 2) + b

/-- Write the frame bits into the LSBs of successive channel values,
leaving every channel beyond the frame untouched. -/
def writeBits : List Nat → List Nat → List Nat
  | _, [] => []
  | [], vs => vs
  | b :: bs, v :: vs => setLSB v b :: writeBits bs vs

/-- The error taxonomy of the embedding direction (spec section 7). -/
inductive StegError where
  | capacityExceeded (required available : Nat)
deriving DecidableEq

/-- Modelled from the spec: `embed(image, message)` builds the frame, fails
with `CapacityExceeded(required_bits, capacity_bits)` before touching any
pixel when the frame does not fit, and otherwise returns a copy of the
image whose consumed channel LSBs carry the frame bits. -/
def embed (I : RasterImage) (m : List Nat) : Except StegError RasterImage :=
  if capacity_bits I < required_bits m then
    .error (.capacityExceeded (required_bits m) (capacity_bits I))
  else
    .ok { I with pixels := writeBits (encode_frame m) I.pixels }

/-- Big-endian bit sequence to number, with accumulator. -/
def bitsToNatAux : Nat → List Nat → Nat
  | acc, [] => acc
  | acc, b :: bs => bitsToNatAux (2 * acc + b) bs

/-- Big-endian bit sequence to number. -/
def bitsToNat (bs : List Nat) : Nat :=
  bitsToNatAux 0 bs

/-- Reassemble bytes from bits, 8 at a time, MSB first; incomplete trailing
groups are dropped. -/
def bitsToBytes : List Nat → List Nat
  | b7 :: b6 :: b5 :: b4 :: b3 :: b2 :: b1 :: b0 :: rest =>
      bitsToNat [b7, b6, b5, b4, b3, b2, b1, b0] :: bitsToBytes rest
  | _ => []

/-- A UTF-8 continuation byte: `0x80 ≤ c ≤ 0xBF`. -/
def utf8Cont (c : Nat) : Bool :=
  0x80 ≤ c && c ≤ 0xBF

/-- RFC 3629 UTF-8 validity of a byte sequence (overlong encodings and
surrogate code points rejected).  Modelled from the spec: the extractor
decodes the payload bytes as UTF-8 and treats failure as "no message". -/
def validUtf8 : List Nat → Bool
  | [] => true
  | b :: bs =>
    if b ≤ 0x7F then validUtf8 bs
    else if 0xC2 ≤ b && b ≤ 0xDF then
      match bs with
      | c1 :: rest => utf8Cont c1 && validUtf8 rest
      | [] => false
    else if b = 0xE0 then
      match bs with
      | c1 :: c2 :: rest =>
          (0xA0 ≤ c1 && c1 ≤ 0xBF) && utf8Cont c2 && validUtf8 rest
      | _ => false
    else if (0xE1 ≤ b && b ≤ 0xEC) || b = 0xEE || b = 0xEF then
      match bs with
      | c1 :: c2 :: rest => utf8Cont c1 && utf8Cont c2 && validUtf8 rest
      | _ => false
    else if b = 0xED then
      match bs with
      | c1 :: c2 :: rest =>
          (0x80 ≤ c1 && c1 ≤ 0x9F) && utf8Cont c2 && validUtf8 rest
      | _ => false
    else if b = 0xF0 then
      match bs with
      | c1 :: c2 :: c3 :: rest =>
          (0x90 ≤ c1 && c1 ≤ 0xBF) && utf8Cont c2 && utf8Cont c3 &&
            validUtf8 rest
      | _ => false
    else if 0xF1 ≤ b && b ≤ 0xF3 then
      match bs with
      | c1 :: c2 :: c3 :: rest =>
          utf8Cont c1 && utf8Cont c2 && utf8Cont c3 && validUtf8 rest
      | _ => false
    else if b = 0xF4 then
      match bs with
      | c1 :: c2 :: c3 :: rest =>
          (0x80 ≤ c1 && c1 ≤ 0x8F) && utf8Cont c2 && utf8Cont c3 &&
            validUtf8 rest
      | _ => false
    else false

/-- Modelled from the spec: `extract(image)` reads the first 32 LSBs as a
declared byte count `L`; if `32 + L*8` exceeds the capacity, or the bits
run out, or the payload is not valid UTF-8, it returns "no message found"
(`none`); otherwise it returns the decoded payload. -/
def extract (I : RasterImage) : Option (List Nat) :=
  let bits := I.pixels.map (fun v => v % 2)
  if bits.length < 32 then none
  else
    let L := bitsToNat (bits.take 32)
    if capacity_bits I < 32 + 8 * L then none
    else
      let payload := (bits.drop 32).take (8 * L)
      if payload.length < 8 * L then none
      else
        let bytes := bitsToBytes payload
        if validUtf8 bytes then some bytes else none

/-! ### The Flask endpoint validation logic, from `src/main.py` -/

/-- From `src/main.py` `allowed_file`: the filename contains a dot and the
lower-cased text after the last dot is one of `jpg`, `jpeg`, `png`. -/
def allowed_file (filename : String) : Bool :=
  filename.contains '.' &&
    ((filename.splitOn ".").getLastD "").toLower ∈ ["jpg", "jpeg", "png"]

/-- Outcome of the `/encode` endpoint's validation chain: either an early
HTTP 400 with a specific error string, or control proceeds to saving the
upload and invoking the codec. -/
inductive EncodeOutcome where
  | error400 (msg : String)
  | proceed
deriving DecidableEq

/-- The `/encode` POST validation chain from `src/main.py` lines 61-78, in
source order: missing image part, empty filename, empty message, message
longer than 10000 characters, disallowed extension; only then does the
handler save the upload and call `encode_message`. -/
def encodeValidate (hasImagePart : Bool) (filename message : String) :
    EncodeOutcome :=
  if !hasImagePart then .error400 "No image file provided"
  else if filename = "" then .error400 "No image file selected"
  else if message = "" then .error400 "Please enter a message to encode"
  else if message.length > 10000 then
    .error400 "Message is too long (max 10000 characters)"
  else if !allowed_file filename then
    .error400 "Only .jpg, .jpeg, and .png files are allowed"
  else .proceed

/-- The `/decode` POST response from `src/main.py` lines 137-146: the
handler tests the extracted value for Python truthiness (`if
hidden_message:`), so both `None` and the empty string report failure. -/
def decodeResponse (hidden : Option String) : Bool × String :=
  match hidden with
  | none => (false, "No hidden message found in this image.")
  | some s =>
      if s = "" then (false, "No hidden message found in this image.")
      else (true, s)

deriving instance DecidableEq for Except

/-! ### Arithmetic and list lemmas about the bit-level primitives -/

theorem natToBits_length (w n : Nat) : (natToBits w n).length = w := by
  induction w generalizing n with
  | zero => simp [natToBits]
  | succ w ih => simp [natToBits, ih]

theorem natToBits_lt_two (w n : Nat) : ∀ b ∈ natToBits w n, b < 2 := by
  induction w generalizing n with
  | zero => simp [natToBits]
  | succ w ih =>
    intro b hb
    simp only [natToBits, List.mem_cons] at hb
    rcases hb with h | h
    · exact h ▸ Nat.mod_lt _ (by norm_num)
    · exact ih n b h

theorem bytesToBits_length (m : List Nat) :
    (bytesToBits m).length = 8 * m.length := by
  induction m with
  | nil => simp [bytesToBits]
  | cons b bs ih =>
    simp [bytesToBits, natToBits_length, ih]
    ring

theorem bytesToBits_lt_two (m : List Nat) : ∀ b ∈ bytesToBits m, b < 2 := by
  induction m with
  | nil => simp [bytesToBits]
  | cons x xs ih =>
    intro b hb
    simp only [bytesToBits, List.mem_append] at hb
    rcases hb with h | h
    · exact natToBits_lt_two 8 x b h
    · exact ih b h

theorem encode_frame_length (m : List Nat) :
    (encode_frame m).length = required_bits m := by
  simp [encode_frame, required_bits, natToBits_length, bytesToBits_length]

theorem encode_frame_lt_two (m : List Nat) :
    ∀ b ∈ encode_frame m, b < 2 := by
  intro b hb
  simp only [encode_frame, List.mem_append] at hb
  rcases hb with h | h
  · exact natToBits_lt_two 32 m.length b h
  · exact bytesToBits_lt_two m b h

theorem mod_two_pow_succ (n w : Nat) :
    n % 2 ^ (w + 1) = n / 2 ^ w % 2 * 2 ^ w + n % 2 ^ w := by
  have h2 : (2 : Nat) ^ (w + 1) = 2 ^ w * 2 := by ring
  have hdvd : (2 : Nat) ^ w ∣ 2 ^ w * 2 := dvd_mul_right _ _
  calc n % 2 ^ (w + 1)
      = 2 ^ w * (n % 2 ^ (w + 1) / 2 ^ w) + n % 2 ^ (w + 1) % 2 ^ w :=
        (Nat.div_add_mod _ _).symm
    _ = n / 2 ^ w % 2 * 2 ^ w + n % 2 ^ w := by
        rw [h2, Nat.mod_mul_right_div_self, Nat.mod_mod_of_dvd n hdvd]
        ring

theorem bitsToNatAux_natToBits (w : Nat) :
    ∀ acc n, bitsToNatAux acc (natToBits w n) = acc * 2 ^ w + n % 2 ^ w := by
  induction w with
  | zero => intro acc n; simp [natToBits, bitsToNatAux, Nat.mod_one]
  | succ w ih =>
    intro acc n
    rw [natToBits, bitsToNatAux, ih, mod_two_pow_succ]
    ring

theorem bitsToNat_natToBits (w n : Nat) :
    bitsToNat (natToBits w n) = n % 2 ^ w := by
  simp [bitsToNat, bitsToNatAux_natToBits]

theorem natToBits_eight (b : Nat) :
    natToBits 8 b =
      [b / 2 ^ 7 % 2, b / 2 ^ 6 % 2, b / 2 ^ 5 % 2, b / 2 ^ 4 % 2,
        b / 2 ^ 3 % 2, b / 2 ^ 2 % 2, b / 2 ^ 1 % 2, b / 2 ^ 0 % 2] := by
  simp [natToBits]

theorem bitsToBytes_bytesToBits (m : List Nat) (hm : ∀ b ∈ m, b < 256) :
    bitsToBytes (bytesToBits m) = m := by
  induction m with
  | nil => simp [bytesToBits, bitsToBytes]
  | cons b bs ih =>
    have hb : b < 256 := hm b (List.mem_cons_self _ _)
    have hbs : ∀ x ∈ bs, x < 256 := fun x hx => hm x (List.mem_cons_of_mem _ hx)
    rw [bytesToBits, natToBits_eight]
    show bitsToBytes (_ :: _ :: _ :: _ :: _ :: _ :: _ :: _ :: bytesToBits bs) = _
    rw [bitsToBytes, ih hbs]
    congr 1
    have := bitsToNat_natToBits 8 b
    rw [natToBits_eight] at this
    have h256 : (2 : Nat) ^ 8 = 256 := by norm_num
    rw [this, h256, Nat.mod_eq_of_lt hb]

theorem writeBits_length (bs vs : List Nat) :
    (writeBits bs vs).length = vs.length := by
  induction vs generalizing bs with
  | nil => cases bs <;> simp [writeBits]
  | cons v vs ih =>
    cases bs with
    | nil => simp [writeBits]
    | cons b bs => simp [writeBits, ih]

theorem setLSB_mod_two (v b : Nat) : setLSB v b % 2 = b % 2 := by
  unfold setLSB
  omega

theorem setLSB_div_two (v b : Nat) (hb : b < 2) : setLSB v b / 2 = v / 2 := by
  unfold setLSB
  omega

theorem writeBits_map_mod (bs : List Nat) :
    ∀ vs : List Nat, bs.length ≤ vs.length →
      (writeBits bs vs).map (fun v => v % 2) =
        bs.map (fun v => v % 2) ++ (vs.drop bs.length).map (fun v => v % 2) := by
  induction bs with
  | nil => intro vs _; cases vs <;> simp [writeBits]
  | cons b bs ih =>
    intro vs hlen
    cases vs with
    | nil => simp at hlen
    | cons v vs =>
      simp only [List.length_cons, Nat.succ_le_succ_iff] at hlen
      simp [writeBits, setLSB_mod_two, ih vs hlen]

theorem writeBits_map_div (bs : List Nat) (hb : ∀ b ∈ bs, b < 2) :
    ∀ vs : List Nat,
      (writeBits bs vs).map (fun v => v / 2) = vs.map (fun v => v / 2) := by
  induction bs with
  | nil => intro vs; cases vs <;> simp [writeBits]
  | cons b bs ih =>
    intro vs
    cases vs with
    | nil => simp [writeBits]
    | cons v vs =>
      have hb0 : b < 2 := hb b (List.mem_cons_self _ _)
      have hbs : ∀ x ∈ bs, x < 2 := fun x hx => hb x (List.mem_cons_of_mem _ hx)
      simp [writeBits, setLSB_div_two v b hb0, ih hbs vs]

theorem writeBits_drop (bs : List Nat) :
    ∀ vs : List Nat, (writeBits bs vs).drop bs.length = vs.drop bs.length := by
  induction bs with
  | nil => intro vs; cases vs <;> simp [writeBits]
  | cons b bs ih =>
    intro vs
    cases vs with
    | nil => simp [writeBits]
    | cons v vs => simp [writeBits, ih vs]

theorem map_mod_eq_self (l : List Nat) (h : ∀ b ∈ l, b < 2) :
    l.map (fun v => v % 2) = l := by
  induction l with
  | nil => simp
  | cons b bs ih =>
    have hb : b < 2 := h b (List.mem_cons_self _ _)
    have hbs : ∀ x ∈ bs, x < 2 := fun x hx => h x (List.mem_cons_of_mem _ hx)
    simp [Nat.mod_eq_of_lt hb, ih hbs]

theorem bytesToBits_take (m : List Nat) :
    ∀ k : Nat, (bytesToBits m).take (8 * k) = bytesToBits (m.take k) := by
  induction m with
  | nil => intro k; simp [bytesToBits]
  | cons b bs ih =>
    intro k
    cases k with
    | zero => simp [bytesToBits]
    | succ k =>
      have h8 : (natToBits 8 b).length = 8 := natToBits_length 8 b
      have hle : (natToBits 8 b).length ≤ 8 * (k + 1) := by omega
      rw [bytesToBits, List.take_append_eq_append_take,
        List.take_of_length_le hle, h8]
      have : 8 * (k + 1) - 8 = 8 * k := by omega
      rw [this, ih k, List.take_succ_cons, bytesToBits]

/-- The embed-then-extract behaviour for any well-formed image with enough
capacity: the extractor recovers the first `byte_length % 2^32` message
bytes (the full message whenever the byte length fits the 32-bit field)
whenever that payload is valid UTF-8. -/
theorem embed_extract_eq (I : RasterImage) (m : List Nat)
    (hwf : I.pixels.length = capacity_bits I)
    (hm : ∀ b ∈ m, b < 256)
    (hcap : required_bits m ≤ capacity_bits I) :
    (embed I m).toOption.bind extract =
      (if validUtf8 (m.take (m.length % 2 ^ 32)) then
        some (m.take (m.length % 2 ^ 32))
      else none) := by
  have hembed : embed I m =
      .ok { I with pixels := writeBits (encode_frame m) I.pixels } := by
    unfold embed
    rw [if_neg (not_lt.mpr hcap)]
  rw [hembed]
  show extract { I with pixels := writeBits (encode_frame m) I.pixels } = _
  set L0 := m.length % 2 ^ 32 with hL0
  have hFlen : (encode_frame m).length = 32 + 8 * m.length := by
    rw [encode_frame_length]; rfl
  have hPlen : I.pixels.length = capacity_bits I := hwf
  have hle : (encode_frame m).length ≤ I.pixels.length := by
    rw [hFlen, hPlen]; exact hcap
  have hbits : (writeBits (encode_frame m) I.pixels).map (fun v => v % 2) =
      natToBits 32 m.length ++
        (bytesToBits m ++
          (I.pixels.drop (encode_frame m).length).map (fun v => v % 2)) := by
    rw [writeBits_map_mod _ _ hle,
      map_mod_eq_self _ (encode_frame_lt_two m), encode_frame,
      List.append_assoc]
  have hblen : ((writeBits (encode_frame m) I.pixels).map
      (fun v => v % 2)).length = capacity_bits I := by
    rw [List.length_map, writeBits_length, hPlen]
  have hcap32 : 32 ≤ capacity_bits I := le_trans (by unfold required_bits; omega) hcap
  have hcapproj :
      capacity_bits { I with pixels := writeBits (encode_frame m) I.pixels } =
        capacity_bits I := rfl
  unfold extract
  simp only [hcapproj]
  rw [if_neg (by rw [List.length_map, writeBits_length, hPlen]; omega)]
  rw [hbits]
  have htake32 : (natToBits 32 m.length ++
      (bytesToBits m ++
        (I.pixels.drop (encode_frame m).length).map (fun v => v % 2))).take 32 =
      natToBits 32 m.length :=
    List.take_left' (natToBits_length 32 m.length)
  rw [htake32, bitsToNat_natToBits, ← hL0]
  have hL0le : L0 ≤ m.length := hL0 ▸ Nat.mod_le _ _
  have hreq : required_bits m ≤ capacity_bits I := hcap
  rw [if_neg (by unfold required_bits at hreq; omega)]
  have hdrop32 : (natToBits 32 m.length ++
      (bytesToBits m ++
        (I.pixels.drop (encode_frame m).length).map (fun v => v % 2))).drop 32 =
      bytesToBits m ++
        (I.pixels.drop (encode_frame m).length).map (fun v => v % 2) :=
    List.drop_left' (natToBits_length 32 m.length)
  rw [hdrop32]
  have htakeP : (bytesToBits m ++
      (I.pixels.drop (encode_frame m).length).map (fun v => v % 2)).take
        (8 * L0) = bytesToBits (m.take L0) := by
    rw [List.take_append_of_le_length
      (by rw [bytesToBits_length]; omega), bytesToBits_take]
  rw [htakeP]
  have hplen : (bytesToBits (m.take L0)).length = 8 * L0 := by
    rw [bytesToBits_length, List.length_take, Nat.min_eq_left hL0le]
  rw [if_neg (by rw [hplen]; omega)]
  have hmtake : ∀ b ∈ m.take L0, b < 256 := fun b hb =>
    hm b (List.mem_of_mem_take hb)
  rw [bitsToBytes_bytesToBits _ hmtake]

theorem natToBits_getElem (w n : Nat) :
    ∀ i, i < w → (natToBits w n)[i]? = some (n / 2 ^ (w - 1 - i) % 2) := by
  induction w with
  | zero => intro i hi; omega
  | succ w ih =>
    intro i hi
    cases i with
    | zero => simp [natToBits]
    | succ i =>
      have hiw : i < w := by omega
      have harith : w + 1 - 1 - (i + 1) = w - 1 - i := by omega
      rw [harith, natToBits, List.getElem?_cons_succ, ih i hiw]

theorem bytesToBits_getElem (m : List Nat) :
    ∀ j i, j < m.length → i < 8 →
      (bytesToBits m)[8 * j + i]? = some (m.getD j 0 / 2 ^ (7 - i) % 2) := by
  induction m with
  | nil => intro j i hj _; simp at hj
  | cons b bs ih =>
    intro j i hj hi
    cases j with
    | zero =>
      rw [bytesToBits, Nat.mul_zero, Nat.zero_add,
        List.getElem?_append_left (by rw [natToBits_length]; omega),
        natToBits_getElem 8 b i hi, List.getD_cons_zero]
    | succ j =>
      have hlen : (natToBits 8 b).length ≤ 8 * (j + 1) + i := by
        rw [natToBits_length]; omega
      rw [bytesToBits, List.getElem?_append_right hlen, natToBits_length,
        List.getD_cons_succ]
      have harith : 8 * (j + 1) + i - 8 = 8 * j + i := by omega
      rw [harith]
      exact ih j i (by simpa using hj) hi

/-- The branch taken by `embed` when the frame does not fit. -/
theorem embed_err (I : RasterImage) (m : List Nat)
    (h : capacity_bits I < required_bits m) :
    embed I m = .error (.capacityExceeded (required_bits m) (capacity_bits I)) := by
  unfold embed
  rw [if_pos h]

/-! ### The claims -/

/-- C1 (amended): for every well-formed image `I` and every valid UTF-8
message `M` of fewer than `2^32` bytes, if
`capacity_bits(I) ≥ required_bits(M)` then decoding the image produced by
encoding yields exactly `M`: `extract(embed(I, M)) = some M`. -/
theorem roundtrip (I : RasterImage) (m : List Nat)
    (hwf : I.pixels.length = capacity_bits I)
    (hm : ∀ b ∈ m, b < 256)
    (hv : validUtf8 m = true)
    (hlen : m.length < 2 ^ 32)
    (hcap : required_bits m ≤ capacity_bits I) :
    (embed I m).toOption.bind extract = some m := by
  rw [embed_extract_eq I m hwf hm hcap, Nat.mod_eq_of_lt hlen,
    List.take_length, if_pos hv]

/-- Witness for C1 (amended): the message `"hi"` round-trips through a
well-formed 10×10 RGB image. -/
theorem roundtrip_witness :
    (embed ⟨10, 10, 3, List.replicate 300 7, []⟩ [104, 105]).toOption.bind
        extract = some [104, 105] :=
  roundtrip ⟨10, 10, 3, List.replicate 300 7, []⟩ [104, 105]
    (by rw [List.length_replicate]; rfl) (by decide) (by decide) (by decide)
    (by decide)

/-- On any all-zero carrier whose geometry is `N × 1 × 9` and any all-zero
message of `N` bytes with `N` a positive multiple of `2^32`, the 32-bit
length field wraps to zero and the round-trip fails. -/
theorem roundtrip_fails_general (N : Nat) (hmod : N % 2 ^ 32 = 0)
    (h32 : 32 ≤ N) :
    ¬ ((embed ⟨N, 1, 9, List.replicate (N * 1 * 9) 0, []⟩
          (List.replicate N 0)).toOption.bind extract =
        some (List.replicate N 0)) := by
  have hwf : (List.replicate (N * 1 * 9) (0 : Nat)).length =
      capacity_bits ⟨N, 1, 9, List.replicate (N * 1 * 9) 0, []⟩ := by
    rw [List.length_replicate]
    rfl
  have hm : ∀ b ∈ List.replicate N (0 : Nat), b < 256 := by
    intro b hb
    rw [List.eq_of_mem_replicate hb]
    norm_num
  have hcap : required_bits (List.replicate N (0 : Nat)) ≤
      capacity_bits ⟨N, 1, 9, List.replicate (N * 1 * 9) 0, []⟩ := by
    show 32 + 8 * (List.replicate N (0 : Nat)).length ≤ N * 1 * 9
    rw [List.length_replicate]
    omega
  rw [embed_extract_eq _ _ hwf hm hcap, List.length_replicate, hmod,
    List.take_zero]
  rw [if_pos (show validUtf8 [] = true from rfl)]
  intro h
  have h2 := congrArg List.length (Option.some.inj h)
  rw [List.length_replicate, List.length_nil] at h2
  omega

/-- Counterexample to C1 as stated: the 32-bit length field wraps for a
message of `2^32` bytes, so on a carrier large enough to satisfy the
claim's capacity hypothesis the round-trip fails (extraction returns the
empty message instead of the embedded one). -/
theorem roundtrip_counterexample :
    ¬ ((embed ⟨2 ^ 32, 1, 9, List.replicate (2 ^ 32 * 1 * 9) 0, []⟩
          (List.replicate (2 ^ 32) 0)).toOption.bind extract =
        some (List.replicate (2 ^ 32) 0)) :=
  roundtrip_fails_general (2 ^ 32) (Nat.mod_self _) (by norm_num)

/-- C2: whenever `required_bits(M) > capacity_bits(I)`, `embed` fails with
`CapacityExceeded` carrying the required and available bit counts; in this
model the image value is untouched (the error carries no image at all), so
encoding is all-or-nothing on the capacity-failure path. -/
theorem embed_capacity_exceeded (I : RasterImage) (m : List Nat)
    (h : capacity_bits I < required_bits m) :
    embed I m =
      .error (.capacityExceeded (required_bits m) (capacity_bits I)) :=
  embed_err I m h

/-- Witness for C2: a 1×1 RGB image (3 bits of capacity) rejects `"hi"`
(48 bits required). -/
theorem embed_capacity_exceeded_witness :
    embed ⟨1, 1, 3, [0, 0, 0], []⟩ [104, 105] =
      .error (.capacityExceeded 48 3) := by
  rw [embed_capacity_exceeded ⟨1, 1, 3, [0, 0, 0], []⟩ [104, 105] (by decide)]
  decide

/-- C3: extraction is total and never fails: on every image, including
random noise and carriers that were never encoded, `extract` returns
either "no message found" (`none`) or some syntactically valid UTF-8
string — it cannot raise an error or return an invalid payload. -/
theorem extract_never_fails (I : RasterImage) :
    extract I = none ∨ ∃ m, extract I = some m ∧ validUtf8 m = true := by
  unfold extract
  dsimp only
  split
  · exact Or.inl rfl
  · split
    · exact Or.inl rfl
    · split
      · exact Or.inl rfl
      · split
        next h => exact Or.inr ⟨_, rfl, h⟩
        next h => exact Or.inl rfl

/-- C4: the frame embedded into the carrier's LSBs is a 32-bit big-endian
count of the message's byte length followed by each message byte expanded
into 8 bits MSB-first, in order, with no delimiter sentinel: the frame has
exactly `32 + 8·|M|` bits, its first 32 bits decode (big-endian) to `|M|`,
and bit `32 + 8j + i` is bit `7 − i` of byte `j`. -/
theorem frame_layout (m : List Nat) (hlen : m.length < 2 ^ 32) :
    (encode_frame m).length = 32 + 8 * m.length ∧
    (encode_frame m).take 32 = natToBits 32 m.length ∧
    bitsToNat ((encode_frame m).take 32) = m.length ∧
    ∀ j, j < m.length → ∀ i, i < 8 →
      (encode_frame m)[32 + (8 * j + i)]? =
        some (m.getD j 0 / 2 ^ (7 - i) % 2) := by
  have htake : (encode_frame m).take 32 = natToBits 32 m.length := by
    rw [encode_frame]
    exact List.take_left' (natToBits_length _ _)
  refine ⟨encode_frame_length m, htake, ?_, ?_⟩
  · rw [htake, bitsToNat_natToBits, Nat.mod_eq_of_lt hlen]
  · intro j hj i hi
    rw [encode_frame,
      List.getElem?_append_right (by rw [natToBits_length]; omega),
      natToBits_length]
    have harith : 32 + (8 * j + i) - 32 = 8 * j + i := by omega
    rw [harith]
    exact bytesToBits_getElem m j i hj hi

/-- Witness for C4 at the message `"hi"`, checking in particular bit
`32 + 8·1 + 0`, the most significant bit of the second byte. -/
theorem frame_layout_witness :
    (encode_frame [104, 105]).length = 32 + 8 * [104, 105].length ∧
    (encode_frame [104, 105]).take 32 = natToBits 32 [104, 105].length ∧
    bitsToNat ((encode_frame [104, 105]).take 32) = [104, 105].length ∧
    (encode_frame [104, 105])[32 + (8 * 1 + 0)]? =
      some ([104, 105].getD 1 0 / 2 ^ (7 - 0) % 2) := by
  obtain ⟨h1, h2, h3, h4⟩ := frame_layout [104, 105] (by decide)
  exact ⟨h1, h2, h3, h4 1 (by decide) 0 (by decide)⟩

/-- C5: any well-formed 10×10 RGB image (no alpha) has
`capacity_bits = 300`; encoding `"hi"` (`required_bits = 48`) succeeds and
round-trips exactly, and encoding a 40-byte message
(`required_bits = 352`) fails with `CapacityExceeded(352, 300)`. -/
theorem boundary_10x10 (I : RasterImage)
    (hw : I.width = 10) (hh : I.height = 10) (hc : I.visibleChannels = 3)
    (hwf : I.pixels.length = capacity_bits I) :
    capacity_bits I = 300 ∧
    required_bits [104, 105] = 48 ∧
    (embed I [104, 105]).toOption.bind extract = some [104, 105] ∧
    required_bits (List.replicate 40 97) = 352 ∧
    embed I (List.replicate 40 97) =
      .error (.capacityExceeded 352 300) := by
  have hcap300 : capacity_bits I = 300 := by
    unfold capacity_bits
    rw [hw, hh, hc]
  have h352 : required_bits (List.replicate 40 97) = 352 := by decide
  refine ⟨hcap300, rfl, ?_, h352, ?_⟩
  · rw [embed_extract_eq I [104, 105] hwf (by decide)
      (by rw [hcap300]; decide)]
    decide
  · have hlt : capacity_bits I < required_bits (List.replicate 40 97) := by
      rw [hcap300, h352]
      norm_num
    rw [embed_err I _ hlt, h352, hcap300]

/-- Witness for C5: the concrete all-sevens 10×10 RGB carrier. -/
theorem boundary_10x10_witness :
    capacity_bits ⟨10, 10, 3, List.replicate 300 7, []⟩ = 300 ∧
    required_bits [104, 105] = 48 ∧
    (embed ⟨10, 10, 3, List.replicate 300 7, []⟩ [104, 105]).toOption.bind
        extract = some [104, 105] ∧
    required_bits (List.replicate 40 97) = 352 ∧
    embed ⟨10, 10, 3, List.replicate 300 7, []⟩ (List.replicate 40 97) =
      .error (.capacityExceeded 352 300) :=
  boundary_10x10 ⟨10, 10, 3, List.replicate 300 7, []⟩ rfl rfl rfl
    (by rw [List.length_replicate]; rfl)

/-- C6: capacity is `width * height * visible_channel_count`, with the
alpha channel excluded from both the capacity count and the embedding
(replacing alpha leaves capacity unchanged, and a successful embed returns
the input's alpha untouched); `required_bits` is `32 + 8 * byte_length`. -/
theorem capacity_required_formulas (I : RasterImage) (m a : List Nat) :
    capacity_bits I = I.width * I.height * I.visibleChannels ∧
    required_bits m = 32 + 8 * m.length ∧
    capacity_bits (withAlpha I a) = capacity_bits I ∧
    (embed I m).toOption.map RasterImage.alpha =
      (embed I m).toOption.map (fun _ => I.alpha) := by
  refine ⟨rfl, rfl, rfl, ?_⟩
  unfold embed
  split <;> rfl

/-- C7: `embed` is a pure function of `(image, message)`: under the
capacity precondition it succeeds, returning a new image with the same
geometry and alpha whose pixel buffer differs from the input's only in the
LSBs of the first `required_bits` channels — every channel beyond the
consumed count and every bit above the LSB is unchanged, and the input
value itself is never mutated. -/
theorem embed_pure_local (I : RasterImage) (m : List Nat)
    (hcap : required_bits m ≤ capacity_bits I) :
    embed I m = .ok
      ⟨I.width, I.height, I.visibleChannels,
        writeBits (encode_frame m) I.pixels, I.alpha⟩ ∧
    (writeBits (encode_frame m) I.pixels).drop (required_bits m) =
      I.pixels.drop (required_bits m) ∧
    (writeBits (encode_frame m) I.pixels).map (fun v => v / 2) =
      I.pixels.map (fun v => v / 2) ∧
    (writeBits (encode_frame m) I.pixels).length = I.pixels.length := by
  refine ⟨?_, ?_, ?_, ?_⟩
  · unfold embed
    rw [if_neg (not_lt.mpr hcap)]
  · have h := writeBits_drop (encode_frame m) I.pixels
    rw [encode_frame_length] at h
    exact h
  · exact writeBits_map_div _ (encode_frame_lt_two m) _
  · exact writeBits_length _ _

/-- Witness for C7: embedding `"h"` in a 4×4 RGB carrier, with each part
of the locality conjunction evaluated on the concrete pixel buffer. -/
theorem embed_pure_local_witness :
    embed ⟨4, 4, 3, List.replicate 48 255, []⟩ [104] = .ok
      ⟨4, 4, 3,
        writeBits (encode_frame [104]) (List.replicate 48 255), []⟩ ∧
    (writeBits (encode_frame [104]) (List.replicate 48 255)).drop
        (required_bits [104]) =
      (List.replicate 48 255).drop (required_bits [104]) ∧
    (writeBits (encode_frame [104]) (List.replicate 48 255)).map
        (fun v => v / 2) =
      (List.replicate 48 255).map (fun v => v / 2) ∧
    (writeBits (encode_frame [104]) (List.replicate 48 255)).length =
      (List.replicate 48 255).length :=
  embed_pure_local ⟨4, 4, 3, List.replicate 48 255, []⟩ [104] (by decide)

/-- C8: extraction is deterministic — two calls of `extract` on the same
unmutated image yield identical results (extraction is a pure function of
the image value). -/
theorem extract_deterministic (I J : RasterImage) (h : I = J) :
    extract I = extract J := by
  rw [h]

/-- Witness for C8 on a concrete 1×2 RGB image. -/
theorem extract_deterministic_witness :
    extract ⟨1, 2, 3, [1, 2, 3, 4, 5, 6], []⟩ =
      extract ⟨1, 2, 3, [1, 2, 3, 4, 5, 6], []⟩ :=
  extract_deterministic ⟨1, 2, 3, [1, 2, 3, 4, 5, 6], []⟩
    ⟨1, 2, 3, [1, 2, 3, 4, 5, 6], []⟩ rfl

/-- C9: the web interface cannot round-trip the empty message.  A POST to
`/encode` with an empty message never reaches the codec — it is rejected
with the 400 error "Please enter a message to encode" (whenever the
earlier image-presence checks pass, and with some 400 error otherwise) —
and on decode an extracted empty string is reported as "No hidden message
found in this image." because the handler tests Python truthiness rather
than `None`. -/
theorem empty_message_not_roundtrippable (hasImagePart : Bool)
    (filename message : String) (hmsg : message = "") :
    encodeValidate hasImagePart filename message ≠ .proceed ∧
    (hasImagePart = true → filename ≠ "" →
      encodeValidate hasImagePart filename message =
        .error400 "Please enter a message to encode") ∧
    decodeResponse (some "") =
      (false, "No hidden message found in this image.") ∧
    decodeResponse none =
      (false, "No hidden message found in this image.") := by
  subst hmsg
  refine ⟨?_, ?_, rfl, rfl⟩
  · cases hasImagePart with
    | false => simp [encodeValidate]
    | true =>
      by_cases hf : filename = "" <;> simp [encodeValidate, hf]
  · intro hImg hfn
    subst hImg
    simp [encodeValidate, hfn]

/-- Witness for C9: a well-formed request carrying an empty message. -/
theorem empty_message_not_roundtrippable_witness :
    encodeValidate true "x.png" "" ≠ .proceed ∧
    encodeValidate true "x.png" "" =
      .error400 "Please enter a message to encode" ∧
    decodeResponse (some "") =
      (false, "No hidden message found in this image.") ∧
    decodeResponse none =
      (false, "No hidden message found in this image.") := by
  obtain ⟨h1, h2, h3, h4⟩ :=
    empty_message_not_roundtrippable true "x.png" "" rfl
  exact ⟨h1, h2 rfl (by decide), h3, h4⟩

/-- C10: a POST to `/encode` whose message exceeds 10000 characters never
reaches the file save or the codec, whatever the carrier image is: the
validation chain (which never inspects the image content, hence is
independent of its capacity) answers with a 400 error, and with the
specific "Message is too long (max 10000 characters)" error whenever the
earlier image-presence checks pass. -/
theorem long_message_rejected (hasImagePart : Bool)
    (filename message : String) (hlong : message.length > 10000) :
    encodeValidate hasImagePart filename message ≠ .proceed ∧
    (hasImagePart = true → filename ≠ "" →
      encodeValidate hasImagePart filename message =
        .error400 "Message is too long (max 10000 characters)") := by
  have hne : ¬ message = "" := by
    intro h
    subst h
    simp at hlong
  constructor
  · cases hasImagePart with
    | false => simp [encodeValidate]
    | true =>
      by_cases hf : filename = "" <;> simp [encodeValidate, hf, hne, hlong]
  · intro hImg hfn
    subst hImg
    simp [encodeValidate, hfn, hne, hlong]

/-- Witness for C10: a request whose message is 10001 copies of `a`. -/
theorem long_message_rejected_witness :
    encodeValidate true "x.png" (String.mk (List.replicate 10001 'a')) ≠
      .proceed ∧
    encodeValidate true "x.png" (String.mk (List.replicate 10001 'a')) =
      .error400 "Message is too long (max 10000 characters)" := by
  obtain ⟨h1, h2⟩ := long_message_rejected true "x.png"
    (String.mk (List.replicate 10001 'a'))
    (by rw [String.length, List.length_replicate]; norm_num)
  exact ⟨h1, h2 rfl (by decide)⟩

end Steg
